import Mathlib

/-!
# s7poll — verification of the PLC data-access engine and typed codec

Shallow embedding of the core of `s7poll` (src/main.go): the hex / integer
codec (`parseHex`, `bytesToHex`, `decodeInts`, `encodeInts`, `joinInts`,
`splitValues`, `formatData`), the area dispatch (`readArea`, `writeArea`)
against an abstract transport, and the poll loop (`runPoll`).

Conventions of the embedding:
* Go strings are `List Char`; Go `[]byte` is `List Nat` with each element a
  byte (`< 256`); machine-integer truncation is explicit `% 2 ^ w`.
* Fallible Go functions returning `(T, error)` become `Except ε T`; the
  distinct error values of main.go are the constructors of `CodecError` /
  `AccessError`, carrying the same context (offset, token, lengths) that the
  Go error messages carry.
* The transport collaborator (gos7 client) is an oracle passed in as a
  `Transport` record; `readArea` / `writeArea` additionally return the list
  of transport calls they issued so that "no transport call was made" is a
  statement about the model.
* `strings.ToUpper` / `strings.ToLower` / `strings.TrimSpace` are modelled on
  the ASCII range, which covers every alias, format name and numeric token
  the program compares against.
-/

namespace S7Poll

/-! ## Character helpers -/

/-- Hex digit test as accepted by Go's `fmt` scanner for the `%X` verb
(digits and letters of either case). -/
def isHexDigitCh (c : Char) : Bool :=
  ('0' ≤ c ∧ c ≤ '9') ∨ ('a' ≤ c ∧ c ≤ 'f') ∨ ('A' ≤ c ∧ c ≤ 'F')

/-- Value of a hex digit (defined arbitrarily as 0 on non-digits). -/
def hexVal (c : Char) : Nat :=
  if '0' ≤ c ∧ c ≤ '9' then c.toNat - '0'.toNat
  else if 'a' ≤ c ∧ c ≤ 'f' then c.toNat - 'a'.toNat + 10
  else if 'A' ≤ c ∧ c ≤ 'F' then c.toNat - 'A'.toNat + 10
  else 0

/-- Characters the `fmt` scanner skips as blanks before a `%X` item when
newlines are not treated as space (space is already stripped by `parseHex`
before scanning; a bare `\r` not followed by `\n` is also skipped).
Non-ASCII space code points are unreachable here. -/
def isScanBlank (c : Char) : Bool :=
  c = ' ' ∨ c = '\t' ∨ c = '\x0b' ∨ c = '\x0c' ∨ c = '\r' ∨
  c = '\x85' ∨ c = '\xa0'

/-- Uppercase hex digit for a value `< 16`, as printed by Go's `%02X`. -/
def upHexDigit (n : Nat) : Char :=
  if n < 10 then Char.ofNat ('0'.toNat + n) else Char.ofNat ('A'.toNat + n - 10)

/-- Decimal digit character for `n < 10`. -/
def digitCh (n : Nat) : Char := Char.ofNat ('0'.toNat + n)

/-- ASCII lower-casing of a single character, as used by Go's `strconv`
(`lower(c) = c | 0x20` applied to letters) and, on the reachable inputs,
by `strings.ToLower`. -/
def lowerCh (c : Char) : Char :=
  if 'A' ≤ c ∧ c ≤ 'Z' then Char.ofNat (c.toNat + 32) else c

/-- ASCII upper-casing of a single character; models `strings.ToUpper` on
the reachable (ASCII) area aliases. -/
def upperCh (c : Char) : Char :=
  if 'a' ≤ c ∧ c ≤ 'z' then Char.ofNat (c.toNat - 32) else c

/-- `strings.ToUpper` on a string, ASCII model. -/
def upperStr (s : List Char) : List Char := s.map upperCh

/-- `strings.ToLower` on a string, ASCII model. -/
def lowerStr (s : List Char) : List Char := s.map lowerCh

/-- Go `unicode.IsSpace` on the ASCII range, used by `strings.TrimSpace`. -/
def isWS (c : Char) : Bool :=
  c = ' ' ∨ c = '\t' ∨ c = '\n' ∨ c = '\x0b' ∨ c = '\x0c' ∨ c = '\r'

/-! ## Codec errors (the distinct error values produced by main.go) -/

/-- The codec-level errors of main.go, carrying the same context as the
corresponding `fmt.Errorf` messages. -/
inductive CodecError where
  /-- "hex input length must be even, got %d" -/
  | hexOddLength (n : Nat)
  /-- "invalid hex at position %d" -/
  | hexInvalidAt (pos : Nat)
  /-- "invalid integer %q" (wraps the strconv error; names the token) -/
  | invalidInteger (token : List Char)
  /-- "invalid float %q" -/
  | invalidFloat (token : List Char)
  /-- "size %d not aligned with data length %d" -/
  | alignment (size n : Nat)
  /-- "float32 output requires size to be a multiple of 4, got %d" -/
  | floatAlign (n : Nat)
  /-- "unknown format %q" -/
  | unknownFormat (f : List Char)
  deriving DecidableEq, Repr

/-! ## Hex codec -/

/-- One pass of `strings.ReplaceAll s (String.mk [a, b]) ""`: delete each
leftmost, non-overlapping occurrence of the two-character pattern and
continue scanning after it (no rescan of newly adjacent characters). -/
def dropPat2 (a b : Char) : List Char → List Char
  | [] => []
  | [c] => [c]
  | c1 :: c2 :: rest =>
    if c1 = a ∧ c2 = b then dropPat2 a b rest
    else c1 :: dropPat2 a b (c2 :: rest)

/-- The cleaning step of `parseHex`:
`strings.ReplaceAll(strings.ReplaceAll(strings.ReplaceAll(s, " ", ""), "0x", ""), "0X", "")`. -/
def cleanHex (s : List Char) : List Char :=
  dropPat2 '0' 'X' (dropPat2 '0' 'x' (s.filter (· ≠ ' ')))

/-- `fmt.Sscanf(group, "%02X", &v)` on a two-character group: skip leading
scanner blanks, then read up to two hex digits; at least one digit must be
read. Reading stops at the first non-digit, so a group whose first character
is a hex digit but whose second is not scans successfully to the value of
its first digit alone. -/
def sscanHexByte (c1 c2 : Char) : Option Nat :=
  if isHexDigitCh c1 then
    if isHexDigitCh c2 then some (16 * hexVal c1 + hexVal c2)
    else some (hexVal c1)
  else if isScanBlank c1 then
    if isHexDigitCh c2 then some (hexVal c2) else none
  else none

/-- The scanning loop of `parseHex` over the cleaned string (`i += 2`),
returning the bytes or the character position of the group whose scan
failed. -/
def parseHexClean (pos : Nat) : List Char → Except Nat (List Nat)
  | [] => .ok []
  | [_] => .error pos
  | c1 :: c2 :: rest =>
    match sscanHexByte c1 c2 with
    | some v =>
      match parseHexClean (pos + 2) rest with
      | .ok vs => .ok (v :: vs)
      | .error e => .error e
    | none => .error pos

/-- `parseHex` of main.go: clean, require even length, scan byte groups. -/
def parseHex (s : List Char) : Except CodecError (List Nat) :=
  let clean := cleanHex s
  if clean.length % 2 ≠ 0 then .error (.hexOddLength clean.length)
  else
    match parseHexClean 0 clean with
    | .ok vs => .ok vs
    | .error p => .error (.hexInvalidAt p)

/-- The two `%02X` digits of a byte. -/
def hexPair (v : Nat) : List Char := [upHexDigit (v / 16), upHexDigit (v % 16)]

/-- Tail of `bytesToHex`: every element preceded by the `' '` separator
(the `i > 0` case of the loop). -/
def bytesToHexAux : List Nat → List Char
  | [] => []
  | v :: rest => ' ' :: (hexPair v ++ bytesToHexAux rest)

/-- `bytesToHex` of main.go: `%02X` per byte, single-space separated, no
trailing separator. -/
def bytesToHex : List Nat → List Char
  | [] => []
  | v :: rest => hexPair v ++ bytesToHexAux rest

instance {ε α : Type} [DecidableEq ε] [DecidableEq α] :
    DecidableEq (Except ε α) := fun a b =>
  match a, b with
  | .ok x, .ok y =>
    match decEq x y with
    | isTrue h => isTrue (by rw [h])
    | isFalse h => isFalse (by intro hc; cases hc; exact h rfl)
  | .error x, .error y =>
    match decEq x y with
    | isTrue h => isTrue (by rw [h])
    | isFalse h => isFalse (by intro hc; cases hc; exact h rfl)
  | .ok _, .error _ => isFalse (by intro hc; cases hc)
  | .error _, .ok _ => isFalse (by intro hc; cases hc)

example : parseHex ("ABC".toList) = .error (.hexOddLength 3) := by decide

/-! ## Integer parsing: `strconv.ParseInt(s, 0, bitSize)` -/

/-- The two error kinds of `strconv` (`ErrSyntax` / `ErrRange`); main.go
only propagates them wrapped in its "invalid integer" message. -/
inductive GoNumErr where
  | badNum
  | outOfRange
  deriving DecidableEq, Repr

/-- Digit value accepted by `strconv`'s scan loop: `0`-`9`, and letters
(either case) valued `10`–`35`; whether the value fits the base is checked
by the caller. -/
def digitVal (c : Char) : Option Nat :=
  if '0' ≤ c ∧ c ≤ '9' then some (c.toNat - '0'.toNat)
  else if 'a' ≤ lowerCh c ∧ lowerCh c ≤ 'z' then some ((lowerCh c).toNat - 'a'.toNat + 10)
  else none

/-- The digit-accumulation loop of `strconv.ParseUint`. `'_'` is skipped
(base auto-detection mode always holds here, since main.go passes base 0)
and flagged for the later `underscoreOK` well-formedness pass; the loop
returns with `ErrRange` as soon as the accumulator would exceed `maxVal`. -/
def scanDigits (base maxVal : Nat) : List Char → Nat → Bool → Except GoNumErr (Nat × Bool)
  | [], n, saw => .ok (n, saw)
  | c :: rest, n, saw =>
    if c = '_' then scanDigits base maxVal rest n true
    else
      match digitVal c with
      | none => .error .badNum
      | some d =>
        if base ≤ d then .error .badNum
        else if maxVal < n * base + d then .error .outOfRange
        else scanDigits base maxVal rest (n * base + d) saw

/-- State loop of `strconv.underscoreOK`: underscores may only separate
digits (the saw-state is `'0'` after a digit or a recognized base prefix,
`'_'` after an underscore, `'!'` after anything else, `'^'` at the start). -/
def underscoreLoop (hexMode : Bool) : List Char → Char → Bool
  | [], saw => saw ≠ '_'
  | c :: rest, saw =>
    if ('0' ≤ c ∧ c ≤ '9') ∨ (hexMode ∧ 'a' ≤ lowerCh c ∧ lowerCh c ≤ 'f') then
      underscoreLoop hexMode rest '0'
    else if c = '_' then
      if saw ≠ '0' then false else underscoreLoop hexMode rest '_'
    else if saw = '_' then false
    else underscoreLoop hexMode rest '!'

/-- `strconv.underscoreOK`: syntactic well-formedness of underscores in a
base-0 numeric literal (optional sign, optional `0b`/`0o`/`0x` prefix). -/
def underscoreOK (s : List Char) : Bool :=
  let s1 := match s with
    | c :: rest => if c = '-' ∨ c = '+' then rest else s
    | [] => s
  match s1 with
  | '0' :: c :: rest =>
    if lowerCh c = 'b' ∨ lowerCh c = 'o' ∨ lowerCh c = 'x' then
      underscoreLoop (lowerCh c = 'x') rest '0'
    else underscoreLoop false s1 '^'
  | _ => underscoreLoop false s1 '^'

/-- `strconv.ParseUint(s, 0, bitSize)`: base auto-detection (`0b`/`0o`/`0x`
prefixes when at least one digit follows, a bare leading `0` selecting
octal, decimal otherwise), digit loop, then the underscore well-formedness
check. `maxVal` is `2^bitSize - 1`; on overflow the loop stops with
`ErrRange`. -/
def parseUintGo (s : List Char) (bitSize : Nat) : Except GoNumErr Nat :=
  match s with
  | [] => .error .badNum
  | c0 :: rest0 =>
    let p : Nat × List Char :=
      if c0 = '0' then
        match rest0 with
        | [] => (8, [])
        | c1 :: rest1 =>
          if rest1 ≠ [] ∧ lowerCh c1 = 'b' then (2, rest1)
          else if rest1 ≠ [] ∧ lowerCh c1 = 'o' then (8, rest1)
          else if rest1 ≠ [] ∧ lowerCh c1 = 'x' then (16, rest1)
          else (8, c1 :: rest1)
      else (10, c0 :: rest0)
    match scanDigits p.1 (2 ^ bitSize - 1) p.2 0 false with
    | .error e => .error e
    | .ok (n, sawU) =>
      if sawU ∧ ¬ underscoreOK s then .error .badNum else .ok n

/-- The tail of `strconv.ParseInt` after the sign has been recognized:
unsigned parse of the body, then the signed range check against
`cutoff = 2^(bitSize-1)`. A range error from `ParseUint` leaves the
magnitude at `maxVal ≥ cutoff`, so it surfaces as a range error here as
well. -/
def parseIntSigned (neg : Bool) (body : List Char) (bitSize : Nat) :
    Except GoNumErr Int :=
  match parseUintGo body bitSize with
  | .error .badNum => .error .badNum
  | .error .outOfRange => .error .outOfRange
  | .ok un =>
    if ¬ neg ∧ 2 ^ (bitSize - 1) ≤ un then .error .outOfRange
    else if neg ∧ 2 ^ (bitSize - 1) < un then .error .outOfRange
    else .ok (if neg then -(un : Int) else (un : Int))

/-- `strconv.ParseInt(s, 0, bitSize)`: optional sign, then the unsigned
parse and signed range check. -/
def parseIntGo (s : List Char) (bitSize : Nat) : Except GoNumErr Int :=
  match s with
  | [] => .error .badNum
  | c :: rest =>
    if c = '+' then parseIntSigned false rest bitSize
    else if c = '-' then parseIntSigned true rest bitSize
    else parseIntSigned false (c :: rest) bitSize

example : parseIntGo ("0x10".toList) 16 = .ok 16 := by decide
example : parseIntGo ("32768".toList) 16 = .error .outOfRange := by decide
example : parseIntGo ("_10".toList) 16 = .error .badNum := by decide

/-! ## Integer codec of main.go -/

/-- Two's-complement reinterpretation `int16(uint16)` / `int32(uint32)`:
the signed reading of an unsigned `8*w`-bit value. -/
def toSigned (w : Nat) (u : Nat) : Int :=
  if u < 2 ^ (8 * w - 1) then (u : Int) else (u : Int) - 2 ^ (8 * w)

/-- `binary.BigEndian.Uint16` over a 2-substring of the byte list, signed:
the element loop of `decodeInts` for size 2. -/
def decode2 : List Nat → List Int
  | b1 :: b2 :: rest => toSigned 2 (b1 * 256 + b2) :: decode2 rest
  | _ => []

/-- The element loop of `decodeInts` for size 4
(`int32(binary.BigEndian.Uint32 ...)`). -/
def decode4 : List Nat → List Int
  | b1 :: b2 :: b3 :: b4 :: rest =>
    toSigned 4 (((b1 * 256 + b2) * 256 + b3) * 256 + b4) :: decode4 rest
  | _ => []

/-- `decodeInts` of main.go: alignment check, then big-endian signed
elements. The Go switch has cases only for sizes 2 and 4 (its only call
sites); for any other positive size the loop appends nothing. -/
def decodeInts (data : List Nat) (size : Nat) : Except CodecError (List Int) :=
  if data.length % size ≠ 0 then .error (.alignment size data.length)
  else match size with
    | 2 => .ok (decode2 data)
    | 4 => .ok (decode4 data)
    | _ => .ok []

/-- Split of `raw` on `','` (`strings.Split`). -/
def splitOnComma : List Char → List (List Char)
  | [] => [[]]
  | c :: rest =>
    match splitOnComma rest with
    | [] => [[c]]
    | t :: ts => if c = ',' then [] :: t :: ts else (c :: t) :: ts

/-- `strings.TrimSpace`, ASCII model. -/
def trimGo (l : List Char) : List Char :=
  ((l.dropWhile isWS).reverse.dropWhile isWS).reverse

/-- `splitValues` of main.go: split on commas, trim each item, drop
empties. -/
def splitValues (raw : List Char) : List (List Char) :=
  ((splitOnComma raw).map trimGo).filter (· ≠ [])

/-- Big-endian bytes of the truncated machine word, as laid down by
`binary.BigEndian.PutUint16` / `PutUint32` (the Go switch covers only
sizes 2 and 4 and appends nothing otherwise). -/
def putUintBE (size u : Nat) : List Nat :=
  match size with
  | 2 => [u / 2 ^ 8 % 256, u % 256]
  | 4 => [u / 2 ^ 24 % 256, u / 2 ^ 16 % 256, u / 2 ^ 8 % 256, u % 256]
  | _ => []

/-- The token loop of `encodeInts`: parse each token via
`strconv.ParseInt(p, 0, size*8)` (failure names the token), truncate to the
machine word (`uint16(val)` / `uint32(val)`), append big-endian bytes. -/
def encodeIntsAux (size : Nat) : List (List Char) → Except CodecError (List Nat)
  | [] => .ok []
  | p :: ps =>
    match parseIntGo p (size * 8) with
    | .error _ => .error (.invalidInteger p)
    | .ok val =>
      match encodeIntsAux size ps with
      | .ok out => .ok (putUintBE size ((val % (2 ^ (8 * size))).toNat) ++ out)
      | .error e => .error e

/-- `encodeInts` of main.go. -/
def encodeInts (raw : List Char) (size : Nat) : Except CodecError (List Nat) :=
  encodeIntsAux size (splitValues raw)

/-- Fuel-driven digit production for `natDigits` (structural recursion so
that concrete values reduce in the kernel; the fuel is never exhausted when
it starts at `n + 1`). -/
def natDigitsGo : Nat → Nat → List Char
  | 0, _ => []
  | fuel + 1, n =>
    if n < 10 then [digitCh n]
    else natDigitsGo fuel (n / 10) ++ [digitCh (n % 10)]

/-- Canonical decimal digits of a natural number (no leading zeros),
matching `fmt.Sprintf("%d", ·)` on non-negatives. -/
def natDigits (n : Nat) : List Char := natDigitsGo (n + 1) n

/-- `fmt.Sprintf("%d", v)` for a signed value. -/
def intDec (v : Int) : List Char :=
  if v < 0 then '-' :: natDigits (-v).toNat else natDigits v.toNat

/-- `joinInts` of main.go: decimal renderings joined with commas. -/
def joinInts (vals : List Int) : List Char :=
  List.intercalate [','] (vals.map intDec)

example : decodeInts [1, 2, 3, 4] 2 = .ok [258, 772] := by decide
example : encodeInts ("abc".toList) 2 = .error (.invalidInteger ("abc".toList)) := by decide

/-! ## formatData -/

/-- The 4-byte big-endian grouping of the float32 output branch
(`binary.BigEndian.Uint32` per group). -/
def floatBits32 : List Nat → List Nat
  | b1 :: b2 :: b3 :: b4 :: rest =>
    (((b1 * 256 + b2) * 256 + b3) * 256 + b4) :: floatBits32 rest
  | _ => []

/-- `formatData` of main.go. The `%g` rendering of a float32 is
floating-point behaviour outside this embedding, so it is abstracted as the
parameter `g` mapping the IEEE-754 bit pattern of a group to its text; no
theorem below depends on `g`'s output. Everything else (format-name
dispatch after `strings.ToLower`, the alignment checks, grouping, comma
joining) mirrors the source. The `string` branch reinterprets the bytes as
text. -/
def formatData (g : Nat → List Char) (data : List Nat) (format : List Char) :
    Except CodecError (List Char) :=
  if lowerStr format = "hex".toList then .ok (bytesToHex data)
  else if lowerStr format = "string".toList ∨ lowerStr format = "str".toList then
    .ok (data.map Char.ofNat)
  else if lowerStr format = "int16".toList then
    match decodeInts data 2 with
    | .ok vals => .ok (joinInts vals)
    | .error e => .error e
  else if lowerStr format = "int32".toList then
    match decodeInts data 4 with
    | .ok vals => .ok (joinInts vals)
    | .error e => .error e
  else if lowerStr format = "float32".toList ∨ lowerStr format = "float".toList then
    if data.length % 4 ≠ 0 then .error (.floatAlign data.length)
    else .ok (List.intercalate [','] ((floatBits32 data).map g))
  else .error (.unknownFormat format)

example : formatData (fun _ => []) [1, 2, 3] ("int32".toList)
    = .error (.alignment 4 3) := by decide

/-! ## Area dispatch against the transport collaborator -/

/-- The four canonical memory-area kinds of the spec's Area Resolver. -/
inductive AreaKind where
  | dataBlock
  | input
  | output
  | marker
  deriving DecidableEq, Repr

/-- `areaOptions` of main.go (`-area`, `-db`, `-start`, `-size`). -/
structure AreaOpts where
  area : List Char
  db : Nat
  start : Nat
  amount : Nat
  deriving DecidableEq, Repr

/-- The transport calls `readArea` / `writeArea` can issue (the gos7
`AGRead*` / `AGWrite*` operations); each write call records the explicit
length argument the code passes. -/
inductive TransportCall where
  | readDB (db start amount : Nat)
  | readEB (start amount : Nat)
  | readAB (start amount : Nat)
  | readMB (start amount : Nat)
  | writeDB (db start len : Nat) (data : List Nat)
  | writeEB (start len : Nat) (data : List Nat)
  | writeAB (start len : Nat) (data : List Nat)
  | writeMB (start len : Nat) (data : List Nat)
  deriving DecidableEq, Repr

/-- The transport collaborator (gos7 client) as an oracle: each read
returns the bytes filling the buffer or an error message, each write
returns `none` on success (Go's nil error). The session-establishment
(`connect`) path is outside this record: the spec's transport calls are the
area read/write operations. -/
structure Transport where
  readDB : Nat → Nat → Nat → Except (List Char) (List Nat)
  readEB : Nat → Nat → Except (List Char) (List Nat)
  readAB : Nat → Nat → Except (List Char) (List Nat)
  readMB : Nat → Nat → Except (List Char) (List Nat)
  writeDB : Nat → Nat → Nat → List Nat → Option (List Char)
  writeEB : Nat → Nat → List Nat → Option (List Char)
  writeAB : Nat → Nat → List Nat → Option (List Char)
  writeMB : Nat → Nat → List Nat → Option (List Char)

/-- The error values of `readArea` / `writeArea`: the "area %q not
supported" error, or a transport error propagated unchanged. -/
inductive AccessError where
  | unsupportedArea (name : List Char)
  | transport (msg : List Char)
  deriving DecidableEq, Repr

/-- The spec's Area Resolver (§4.2): the kind classification implicit in
the `switch strings.ToUpper(area.area)` of both `readArea` and
`writeArea`. -/
def resolveArea (s : List Char) : Option AreaKind :=
  if upperStr s = "DB".toList then some .dataBlock
  else if upperStr s = "PE".toList ∨ upperStr s = "I".toList ∨ upperStr s = "INPUT".toList then
    some .input
  else if upperStr s = "PA".toList ∨ upperStr s = "Q".toList ∨ upperStr s = "OUTPUT".toList then
    some .output
  else if upperStr s = "MK".toList ∨ upperStr s = "M".toList ∨ upperStr s = "MERKER".toList then
    some .marker
  else none

/-- `readArea` of main.go, paired with the list of transport calls it
issued (so that "no transport call" is expressible). -/
def readArea (tr : Transport) (a : AreaOpts) :
    Except AccessError (List Nat) × List TransportCall :=
  if upperStr a.area = "DB".toList then
    (match tr.readDB a.db a.start a.amount with
     | .ok buf => .ok buf
     | .error e => .error (.transport e), [.readDB a.db a.start a.amount])
  else if upperStr a.area = "PE".toList ∨ upperStr a.area = "I".toList ∨
      upperStr a.area = "INPUT".toList then
    (match tr.readEB a.start a.amount with
     | .ok buf => .ok buf
     | .error e => .error (.transport e), [.readEB a.start a.amount])
  else if upperStr a.area = "PA".toList ∨ upperStr a.area = "Q".toList ∨
      upperStr a.area = "OUTPUT".toList then
    (match tr.readAB a.start a.amount with
     | .ok buf => .ok buf
     | .error e => .error (.transport e), [.readAB a.start a.amount])
  else if upperStr a.area = "MK".toList ∨ upperStr a.area = "M".toList ∨
      upperStr a.area = "MERKER".toList then
    (match tr.readMB a.start a.amount with
     | .ok buf => .ok buf
     | .error e => .error (.transport e), [.readMB a.start a.amount])
  else (.error (.unsupportedArea a.area), [])

/-- `writeArea` of main.go: same switch, dispatching one write with
`len(data)` as the explicit length argument. -/
def writeArea (tr : Transport) (a : AreaOpts) (data : List Nat) :
    Except AccessError Unit × List TransportCall :=
  if upperStr a.area = "DB".toList then
    (match tr.writeDB a.db a.start data.length data with
     | none => .ok ()
     | some e => .error (.transport e), [.writeDB a.db a.start data.length data])
  else if upperStr a.area = "PE".toList ∨ upperStr a.area = "I".toList ∨
      upperStr a.area = "INPUT".toList then
    (match tr.writeEB a.start data.length data with
     | none => .ok ()
     | some e => .error (.transport e), [.writeEB a.start data.length data])
  else if upperStr a.area = "PA".toList ∨ upperStr a.area = "Q".toList ∨
      upperStr a.area = "OUTPUT".toList then
    (match tr.writeAB a.start data.length data with
     | none => .ok ()
     | some e => .error (.transport e), [.writeAB a.start data.length data])
  else if upperStr a.area = "MK".toList ∨ upperStr a.area = "M".toList ∨
      upperStr a.area = "MERKER".toList then
    (match tr.writeMB a.start data.length data with
     | none => .ok ()
     | some e => .error (.transport e), [.writeMB a.start data.length data])
  else (.error (.unsupportedArea a.area), [])

/-- The transport write call `writeArea` issues for a resolved kind. -/
def writeCallOf (k : AreaKind) (a : AreaOpts) (data : List Nat) : TransportCall :=
  match k with
  | .dataBlock => .writeDB a.db a.start data.length data
  | .input => .writeEB a.start data.length data
  | .output => .writeAB a.start data.length data
  | .marker => .writeMB a.start data.length data

/-- The explicit length argument carried by a transport write call
(`0` for reads, which carry `amount` instead). -/
def callLen : TransportCall → Nat
  | .writeDB _ _ len _ => len
  | .writeEB _ len _ => len
  | .writeAB _ len _ => len
  | .writeMB _ len _ => len
  | _ => 0

/-! ## The poll loop -/

/-- Errors surfacing from a poll tick: a read failure or a format
failure. -/
inductive PollErr where
  | access (e : AccessError)
  | codec (e : CodecError)
  deriving DecidableEq, Repr

/-- Observable events of one poll run: a `readArea` invocation, an emitted
formatted line, an inter-tick sleep. -/
inductive PollEv where
  | read
  | emit (out : List Char)
  | sleep
  deriving DecidableEq, Repr

/-- The loop of `runPoll` (main.go): read, format, emit, increment the
counter, stop when `count > 0 && i >= count`, otherwise sleep and repeat.
`rd i` is the result of the `i`-th `readArea` call (the transport may
answer differently on every tick); `fuel` bounds the recursion and `none`
means it ran out, so `runPollGo ... fuel i = some r` states that the loop
finished within `fuel` iterations. -/
def runPollGo (rd : Nat → Except AccessError (List Nat)) (g : Nat → List Char)
    (fmt : List Char) (count : Nat) :
    Nat → Nat → Option (List PollEv × Except PollErr Unit)
  | 0, _ => none
  | fuel + 1, i =>
    match rd i with
    | .error e => some ([.read], .error (.access e))
    | .ok data =>
      match formatData g data fmt with
      | .error e => some ([.read], .error (.codec e))
      | .ok out =>
        if 0 < count ∧ count ≤ i + 1 then some ([.read, .emit out], .ok ())
        else
          match runPollGo rd g fmt count fuel (i + 1) with
          | none => none
          | some (evs, r) => some (.read :: .emit out :: .sleep :: evs, r)

/-! ## Specification-side definitions used by the theorems -/

/-- Big-endian value of a byte group (specification-side definition,
independent of the loops in `decodeInts`). -/
def beNat (l : List Nat) : Nat := l.foldl (fun a b => a * 256 + b) 0

/-- Index-based specification of signed big-endian decoding: the `i`-th
element is the signed reading of the `i`-th `w`-byte slice. -/
def sliceGroups (w : Nat) (data : List Nat) : List Int :=
  (List.range (data.length / w)).map
    (fun i => toSigned w (beNat ((data.drop (w * i)).take w)))

/-- Concatenation of the hex pairs of a byte list (the cleaned form of the
rendered text). -/
def hexCat : List Nat → List Char
  | [] => []
  | b :: rest => hexPair b ++ hexCat rest

/-- A transport oracle that answers every read with an empty buffer and
every write with success; used to instantiate universally-quantified
transport arguments at concrete inputs. -/
def idleTransport : Transport :=
  ⟨fun _ _ _ => .ok [], fun _ _ => .ok [], fun _ _ => .ok [], fun _ _ => .ok [],
   fun _ _ _ _ => none, fun _ _ _ => none, fun _ _ _ => none, fun _ _ _ => none⟩


/-- Event classifiers for poll traces. -/
def isReadEv : PollEv → Bool
  | .read => true
  | _ => false

def isEmitEv : PollEv → Bool
  | .emit _ => true
  | _ => false

def isSleepEv : PollEv → Bool
  | .sleep => true
  | _ => false

/-! ## Claim theorems -/

/-- C1 (code bug): the hex write input `"1G"` has even length and its only
two-character group `1G` is not a valid hex byte, yet `parseHex` silently
produces the byte `0x01` with no error — `fmt.Sscanf` with `%02X` accepts
the one-digit scan of `1` and ignores the trailing `G`. The claim (and
spec §4.1) require a `MalformedInput` error carrying offset 0 here. -/
theorem c1_invalid_group_accepted : parseHex ("1G".toList) = .ok [1] := by decide

/-- C2: whenever the area alias fails to resolve (unrecognized, or the
recognized-but-unimplemented `TM`/`CT`), both `readArea` and `writeArea`
report the unsupported-area error and their transport-call log is empty —
the error is reported before any transport (area read/write) call is
issued. -/
theorem c2_unsupported_before_transport (tr : Transport) (a : AreaOpts)
    (data : List Nat) (h : resolveArea a.area = none) :
    readArea tr a = (.error (.unsupportedArea a.area), []) ∧
    writeArea tr a data = (.error (.unsupportedArea a.area), []) := by
  simp only [resolveArea] at h
  split_ifs at h with h1 h2 h3 h4
  refine ⟨?_, ?_⟩
  · simp only [readArea, if_neg h1, if_neg h2, if_neg h3, if_neg h4]
  · simp only [writeArea, if_neg h1, if_neg h2, if_neg h3, if_neg h4]

/-- Witness for C2 at the concrete area `"tm"`. -/
theorem c2_witness :
    readArea idleTransport ⟨"tm".toList, 1, 0, 4⟩ =
      (.error (.unsupportedArea ("tm".toList)), []) ∧
    writeArea idleTransport ⟨"tm".toList, 1, 0, 4⟩ [1] =
      (.error (.unsupportedArea ("tm".toList)), []) :=
  c2_unsupported_before_transport idleTransport ⟨"tm".toList, 1, 0, 4⟩ [1] (by decide)

/-- C7: area resolution is case-insensitive against the alias table
(`db` and `DB` both resolve to DataBlock; any two spellings with the same
upper-casing resolve alike), and `tm` / `ct` resolve to the
unsupported-area error without dispatching any read or write (empty
transport-call log). -/
theorem c7_area_resolution :
    resolveArea ("db".toList) = some .dataBlock ∧
    resolveArea ("DB".toList) = some .dataBlock ∧
    resolveArea ("tm".toList) = none ∧
    resolveArea ("ct".toList) = none ∧
    (∀ s t : List Char, upperStr s = upperStr t → resolveArea s = resolveArea t) ∧
    (∀ (tr : Transport) (db st n : Nat) (data : List Nat),
      readArea tr ⟨"tm".toList, db, st, n⟩ =
        (.error (.unsupportedArea ("tm".toList)), []) ∧
      writeArea tr ⟨"ct".toList, db, st, n⟩ data =
        (.error (.unsupportedArea ("ct".toList)), [])) := by
  refine ⟨by decide, by decide, by decide, by decide, ?_, ?_⟩
  · intro s t h
    simp only [resolveArea, h]
  · intro tr db st n data
    refine ⟨?_, ?_⟩
    · simp only [readArea]
      split_ifs with h1 h2 h3 h4
      · exact absurd h1 (by decide)
      · exact absurd h2 (by decide)
      · exact absurd h3 (by decide)
      · exact absurd h4 (by decide)
      · rfl
    · simp only [writeArea]
      split_ifs with h1 h2 h3 h4
      · exact absurd h1 (by decide)
      · exact absurd h2 (by decide)
      · exact absurd h3 (by decide)
      · exact absurd h4 (by decide)
      · rfl

/-- Witness for C7: the case-insensitivity clause applied at `"Db"` /
`"dB"`, and the no-dispatch clause at a concrete transport. -/
theorem c7_witness :
    resolveArea ("Db".toList) = resolveArea ("dB".toList) ∧
    readArea idleTransport ⟨"tm".toList, 1, 0, 4⟩ =
      (.error (.unsupportedArea ("tm".toList)), []) :=
  ⟨c7_area_resolution.2.2.2.2.1 ("Db".toList) ("dB".toList) (by decide),
   (c7_area_resolution.2.2.2.2.2 idleTransport 1 0 4 []).1⟩

/-- C9: for every descriptor whose area resolves and every payload,
`writeArea` issues exactly the one transport write selected by the kind,
carrying `data.length` as the explicit length argument; the descriptor's
`amount` (length) field does not influence the call at all. -/
theorem c9_write_dispatch (tr : Transport) (a : AreaOpts) (data : List Nat)
    (k : AreaKind) (h : resolveArea a.area = some k) :
    (writeArea tr a data).2 = [writeCallOf k a data] ∧
    callLen (writeCallOf k a data) = data.length ∧
    (∀ n : Nat, writeArea tr { a with amount := n } data = writeArea tr a data) := by
  simp only [resolveArea] at h
  split_ifs at h with h1 h2 h3 h4 <;>
    injection h with h <;> subst h <;>
    refine ⟨?_, rfl, fun n => rfl⟩
  · simp only [writeArea, writeCallOf, if_pos h1]
  · simp only [writeArea, writeCallOf, if_neg h1, if_pos h2]
  · simp only [writeArea, writeCallOf, if_neg h1, if_neg h2, if_pos h3]
  · simp only [writeArea, writeCallOf, if_neg h1, if_neg h2, if_neg h3, if_pos h4]

/-- Witness for C9 at a DataBlock descriptor with `amount = 4` and a
3-byte payload. -/
theorem c9_witness :
    (writeArea idleTransport ⟨"DB".toList, 3, 12, 4⟩ [9, 9, 9]).2 =
      [writeCallOf .dataBlock ⟨"DB".toList, 3, 12, 4⟩ [9, 9, 9]] ∧
    callLen (writeCallOf .dataBlock ⟨"DB".toList, 3, 12, 4⟩ [9, 9, 9]) = 3 ∧
    (∀ n : Nat, writeArea idleTransport ⟨"DB".toList, 3, 12, n⟩ [9, 9, 9] =
      writeArea idleTransport ⟨"DB".toList, 3, 12, 4⟩ [9, 9, 9]) :=
  c9_write_dispatch idleTransport ⟨"DB".toList, 3, 12, 4⟩ [9, 9, 9] .dataBlock (by decide)

/-! ### C3: decodeInts reads signed big-endian elements -/

theorem sliceGroups_cons2 (b1 b2 : Nat) (rest : List Nat) :
    sliceGroups 2 (b1 :: b2 :: rest) =
      toSigned 2 (b1 * 256 + b2) :: sliceGroups 2 rest := by
  simp only [sliceGroups, List.length_cons]
  have hlen : (rest.length + 1 + 1) / 2 = rest.length / 2 + 1 := by omega
  rw [hlen, List.range_succ_eq_map, List.map_cons, List.map_map,
    List.cons_eq_cons]
  refine ⟨by simp [beNat], ?_⟩
  · refine List.map_congr_left ?_
    intro i _
    have h2 : 2 * (i + 1) = 2 * i + 1 + 1 := by ring
    simp only [Function.comp, h2, List.drop_succ_cons]

theorem sliceGroups_cons4 (b1 b2 b3 b4 : Nat) (rest : List Nat) :
    sliceGroups 4 (b1 :: b2 :: b3 :: b4 :: rest) =
      toSigned 4 (((b1 * 256 + b2) * 256 + b3) * 256 + b4) :: sliceGroups 4 rest := by
  simp only [sliceGroups, List.length_cons]
  have hlen : (rest.length + 1 + 1 + 1 + 1) / 4 = rest.length / 4 + 1 := by omega
  rw [hlen, List.range_succ_eq_map, List.map_cons, List.map_map,
    List.cons_eq_cons]
  refine ⟨by simp [beNat], ?_⟩
  · refine List.map_congr_left ?_
    intro i _
    have h4 : 4 * (i + 1) = 4 * i + 1 + 1 + 1 + 1 := by ring
    simp only [Function.comp, h4, List.drop_succ_cons]

theorem decode2_eq : ∀ data : List Nat, decode2 data = sliceGroups 2 data
  | [] => by simp [decode2, sliceGroups]
  | [b] => by simp [decode2, sliceGroups]
  | b1 :: b2 :: rest => by
    rw [decode2, decode2_eq rest, sliceGroups_cons2]

theorem decode4_eq : ∀ data : List Nat, decode4 data = sliceGroups 4 data
  | [] => by simp [decode4, sliceGroups]
  | [b] => by simp [decode4, sliceGroups]
  | [b1, b2] => by simp [decode4, sliceGroups]
  | [b1, b2, b3] => by
    simp only [decode4, sliceGroups, List.length_cons, List.length_nil]
    norm_num
  | b1 :: b2 :: b3 :: b4 :: rest => by
    rw [decode4, decode4_eq rest, sliceGroups_cons4]

/-- C3: for width 2 (Int16) and 4 (Int32), a payload whose length is not a
multiple of the width decodes to the alignment error; an aligned payload
decodes each `w`-byte slice as a signed big-endian integer; and the
scenario bytes `01 02 03 04` format as int16 to the text `258,772`. -/
theorem c3_int_decode (g : Nat → List Char) (data : List Nat) (w : Nat)
    (hw : w = 2 ∨ w = 4) :
    (data.length % w ≠ 0 → decodeInts data w = .error (.alignment w data.length)) ∧
    (data.length % w = 0 → decodeInts data w = .ok (sliceGroups w data)) ∧
    formatData g [1, 2, 3, 4] ("int16".toList) = .ok ("258,772".toList) := by
  refine ⟨?_, ?_, ?_⟩
  · intro h
    rcases hw with rfl | rfl <;> simp only [decodeInts, if_pos h]
  · intro h
    rcases hw with rfl | rfl
    · simp only [decodeInts, h]
      norm_num [decode2_eq]
    · simp only [decodeInts, h]
      norm_num [decode4_eq]
  · rfl

/-- Witness for C3: the alignment error at a 3-byte payload, the signed
big-endian decode of the scenario bytes, and the formatted scenario. -/
theorem c3_witness :
    decodeInts [5, 6, 7] 2 = .error (.alignment 2 3) ∧
    decodeInts [1, 2, 3, 4] 2 = .ok (sliceGroups 2 [1, 2, 3, 4]) ∧
    formatData (fun _ => []) [1, 2, 3, 4] ("int16".toList) = .ok ("258,772".toList) :=
  ⟨(c3_int_decode (fun _ => []) [5, 6, 7] 2 (Or.inl rfl)).1 (by decide),
   (c3_int_decode (fun _ => []) [1, 2, 3, 4] 2 (Or.inl rfl)).2.1 (by decide),
   (c3_int_decode (fun _ => []) [] 2 (Or.inl rfl)).2.2⟩

/-! ### C5: hex rendering and round trip -/

theorem upHexDigit_facts : ∀ n < 16,
    isHexDigitCh (upHexDigit n) = true ∧ hexVal (upHexDigit n) = n ∧
    upHexDigit n ≠ ' ' ∧ upHexDigit n ≠ 'x' ∧ upHexDigit n ≠ 'X' ∧
    (('0' ≤ upHexDigit n ∧ upHexDigit n ≤ '9') ∨
      ('A' ≤ upHexDigit n ∧ upHexDigit n ≤ 'F')) := by decide

theorem dropPat2_not_mem (a b : Char) :
    ∀ l : List Char, b ∉ l → dropPat2 a b l = l
  | [], _ => rfl
  | [c], _ => rfl
  | c1 :: c2 :: rest, h => by
    have hb2 : c2 ≠ b := fun e => h (by simp [e])
    rw [dropPat2, if_neg (fun hc => hb2 hc.2),
      dropPat2_not_mem a b (c2 :: rest) (fun hm => h (List.mem_cons_of_mem c1 hm))]

theorem filter_bytesToHexAux (B : List Nat) (hB : ∀ b ∈ B, b < 256) :
    (bytesToHexAux B).filter (· ≠ ' ') = hexCat B := by
  induction B with
  | nil => rfl
  | cons b rest ih =>
    have hb : b < 256 := hB b (List.mem_cons_self b rest)
    have h1 := (upHexDigit_facts (b / 16) (by omega)).2.2.1
    have h2 := (upHexDigit_facts (b % 16) (by omega)).2.2.1
    have ih' := ih (fun x hx => hB x (List.mem_cons_of_mem b hx))
    show (' ' :: upHexDigit (b / 16) :: upHexDigit (b % 16) ::
      bytesToHexAux rest).filter (· ≠ ' ') = hexPair b ++ hexCat rest
    rw [List.filter_cons, if_neg (by simp)]
    rw [List.filter_cons, if_pos (by simp [h1])]
    rw [List.filter_cons, if_pos (by simp [h2])]
    rw [ih']
    rfl

theorem filter_bytesToHex (B : List Nat) (hB : ∀ b ∈ B, b < 256) :
    (bytesToHex B).filter (· ≠ ' ') = hexCat B := by
  cases B with
  | nil => rfl
  | cons b rest =>
    have hb : b < 256 := hB b (List.mem_cons_self b rest)
    have h1 := (upHexDigit_facts (b / 16) (by omega)).2.2.1
    have h2 := (upHexDigit_facts (b % 16) (by omega)).2.2.1
    show (upHexDigit (b / 16) :: upHexDigit (b % 16) ::
      bytesToHexAux rest).filter (· ≠ ' ') = hexPair b ++ hexCat rest
    rw [List.filter_cons, if_pos (by simp [h1])]
    rw [List.filter_cons, if_pos (by simp [h2])]
    rw [filter_bytesToHexAux rest (fun x hx => hB x (List.mem_cons_of_mem b hx))]
    rfl

theorem mem_hexCat (B : List Nat) (hB : ∀ b ∈ B, b < 256) (c : Char)
    (hc : c ∈ hexCat B) : ∃ n, n < 16 ∧ c = upHexDigit n := by
  induction B with
  | nil => cases hc
  | cons b rest ih =>
    have hb : b < 256 := hB b (List.mem_cons_self b rest)
    rw [hexCat] at hc
    rcases List.mem_append.mp hc with h | h
    · rcases List.mem_cons.mp h with rfl | h
      · exact ⟨b / 16, by omega, rfl⟩
      · rcases List.mem_cons.mp h with rfl | h
        · exact ⟨b % 16, by omega, rfl⟩
        · cases h
    · exact ih (fun x hx => hB x (List.mem_cons_of_mem b hx)) h

theorem cleanHex_bytesToHex (B : List Nat) (hB : ∀ b ∈ B, b < 256) :
    cleanHex (bytesToHex B) = hexCat B := by
  have hx : 'x' ∉ hexCat B := by
    intro hm
    obtain ⟨n, hn, he⟩ := mem_hexCat B hB 'x' hm
    exact (upHexDigit_facts n hn).2.2.2.1 he.symm
  have hX : 'X' ∉ hexCat B := by
    intro hm
    obtain ⟨n, hn, he⟩ := mem_hexCat B hB 'X' hm
    exact (upHexDigit_facts n hn).2.2.2.2.1 he.symm
  rw [cleanHex, filter_bytesToHex B hB, dropPat2_not_mem _ _ _ hx,
    dropPat2_not_mem _ _ _ hX]

theorem length_hexCat : ∀ B : List Nat, (hexCat B).length = 2 * B.length
  | [] => rfl
  | b :: rest => by
    rw [hexCat]
    simp [hexPair, length_hexCat rest]
    omega

theorem parseHexClean_hexCat (B : List Nat) (hB : ∀ b ∈ B, b < 256) :
    ∀ p : Nat, parseHexClean p (hexCat B) = .ok B := by
  induction B with
  | nil => intro p; rfl
  | cons b rest ih =>
    intro p
    have hb : b < 256 := hB b (List.mem_cons_self b rest)
    obtain ⟨d1, v1, -⟩ := upHexDigit_facts (b / 16) (by omega)
    obtain ⟨d2, v2, -⟩ := upHexDigit_facts (b % 16) (by omega)
    have hscan : sscanHexByte (upHexDigit (b / 16)) (upHexDigit (b % 16)) = some b := by
      rw [sscanHexByte, if_pos (by simpa using d1), if_pos (by simpa using d2),
        v1, v2]
      congr 1
      omega
    show parseHexClean p (upHexDigit (b / 16) :: upHexDigit (b % 16) :: hexCat rest) = _
    rw [parseHexClean, hscan, ih (fun x hx => hB x (List.mem_cons_of_mem b hx)) (p + 2)]

theorem bytesToHex_cons2 (b1 b2 : Nat) (rest : List Nat) :
    bytesToHex (b1 :: b2 :: rest) = hexPair b1 ++ ' ' :: bytesToHex (b2 :: rest) := rfl

theorem bytesToHex_intercalate :
    ∀ B : List Nat, bytesToHex B = List.intercalate [' '] (B.map hexPair)
  | [] => by simp [bytesToHex, List.intercalate]
  | [b] => by simp [bytesToHex, bytesToHexAux, List.intercalate]
  | b1 :: b2 :: rest => by
    rw [bytesToHex_cons2, bytesToHex_intercalate (b2 :: rest)]
    simp [List.intercalate]

/-- C5: for every byte sequence `B`, `bytesToHex` renders each byte as two
uppercase hex digits, single-space separated with no trailing separator
(the intercalation of the `%02X` pairs, every character a space, a decimal
digit or `A`–`F`), and `parseHex` of that rendering yields `B` again. -/
theorem c5_hex_roundtrip (B : List Nat) (hB : ∀ b ∈ B, b < 256) :
    parseHex (bytesToHex B) = .ok B ∧
    bytesToHex B = List.intercalate [' '] (B.map hexPair) ∧
    (∀ c ∈ bytesToHex B, c = ' ' ∨ ('0' ≤ c ∧ c ≤ '9') ∨ ('A' ≤ c ∧ c ≤ 'F')) := by
  refine ⟨?_, bytesToHex_intercalate B, ?_⟩
  · rw [parseHex]
    simp only [cleanHex_bytesToHex B hB, length_hexCat]
    rw [if_neg (by omega), parseHexClean_hexCat B hB 0]
  · intro c hc
    have hfc : c = ' ' ∨ c ∈ hexCat B := by
      by_cases hsp : c = ' '
      · exact Or.inl hsp
      · refine Or.inr ?_
        rw [← filter_bytesToHex B hB]
        exact List.mem_filter.mpr ⟨hc, by simpa using hsp⟩
    rcases hfc with rfl | hm
    · exact Or.inl rfl
    · obtain ⟨n, hn, rfl⟩ := mem_hexCat B hB c hm
      exact Or.inr (upHexDigit_facts n hn).2.2.2.2.2

/-- Witness for C5 at the bytes `[0, 171, 255]`. -/
theorem c5_witness :
    parseHex (bytesToHex [0, 171, 255]) = .ok [0, 171, 255] ∧
    bytesToHex [0, 171, 255] = List.intercalate [' '] ([0, 171, 255].map hexPair) ∧
    (∀ c ∈ bytesToHex [0, 171, 255],
      c = ' ' ∨ ('0' ≤ c ∧ c ≤ '9') ∨ ('A' ≤ c ∧ c ≤ 'F')) :=
  c5_hex_roundtrip [0, 171, 255] (by decide)

/-! ### C6: integer encode/decode round trip and range rejection -/

theorem scanDigits_append (base maxVal : Nat) :
    ∀ (l1 l2 : List Char) (n : Nat) (saw : Bool),
    scanDigits base maxVal (l1 ++ l2) n saw =
      match scanDigits base maxVal l1 n saw with
      | .ok (m, s2) => scanDigits base maxVal l2 m s2
      | .error e => .error e
  | [], l2, n, saw => by simp [scanDigits]
  | c :: rest, l2, n, saw => by
    simp only [List.cons_append, scanDigits]
    split_ifs with hc
    · exact scanDigits_append base maxVal rest l2 n true
    · cases hd : digitVal c with
      | none => rfl
      | some d =>
        simp only []
        split_ifs with h1 h2
        · rfl
        · rfl
        · exact scanDigits_append base maxVal rest l2 (n * base + d) saw

theorem digitCh_facts : ∀ d < 10,
    digitVal (digitCh d) = some d ∧ digitCh d ≠ '_' ∧ digitCh d ≠ '-' ∧
    digitCh d ≠ '+' ∧ isWS (digitCh d) = false ∧ digitCh d ≠ ',' ∧
    (d ≠ 0 → digitCh d ≠ '0') := by decide

theorem natDigitsGo_irrel :
    ∀ f1 f2 n : Nat, n < f1 → n < f2 → natDigitsGo f1 n = natDigitsGo f2 n
  | 0, _, n, h1, _ => absurd h1 (Nat.not_lt_zero n)
  | _ + 1, 0, n, _, h2 => absurd h2 (Nat.not_lt_zero n)
  | f1 + 1, f2 + 1, n, h1, h2 => by
    rw [natDigitsGo, natDigitsGo]
    by_cases h : n < 10
    · rw [if_pos h, if_pos h]
    · rw [if_neg h, if_neg h,
        natDigitsGo_irrel f1 f2 (n / 10) (by omega) (by omega)]

/-- The recursion equation of `natDigits`, independent of the fuel. -/
theorem natDigits_eq (n : Nat) :
    natDigits n = if n < 10 then [digitCh n]
      else natDigits (n / 10) ++ [digitCh (n % 10)] := by
  rw [natDigits, natDigitsGo]
  by_cases h : n < 10
  · rw [if_pos h, if_pos h]
  · rw [if_neg h, if_neg h, natDigits]
    rw [natDigitsGo_irrel n (n / 10 + 1) (n / 10) (by omega) (by omega)]

theorem natDigits_mem (n : Nat) :
    ∀ c ∈ natDigits n, ∃ d, d < 10 ∧ c = digitCh d := by
  induction n using Nat.strong_induction_on with
  | _ n ih =>
    intro c hc
    rw [natDigits_eq] at hc
    by_cases h : n < 10
    · rw [if_pos h] at hc
      rcases List.mem_cons.mp hc with rfl | hc
      · exact ⟨n, h, rfl⟩
      · cases hc
    · rw [if_neg h] at hc
      rcases List.mem_append.mp hc with hc | hc
      · exact ih (n / 10) (by omega) c hc
      · rcases List.mem_cons.mp hc with rfl | hc
        · exact ⟨n % 10, by omega, rfl⟩
        · cases hc

theorem natDigits_ne_nil (n : Nat) : natDigits n ≠ [] := by
  rw [natDigits_eq]
  by_cases h : n < 10
  · rw [if_pos h]; simp
  · rw [if_neg h]; simp [natDigits_ne_nil (n / 10)]

theorem natDigits_head (n : Nat) (hn : 1 ≤ n) :
    ∃ c cs, natDigits n = c :: cs ∧ c ≠ '0' ∧ ∃ d, d < 10 ∧ c = digitCh d := by
  induction n using Nat.strong_induction_on with
  | _ n ih =>
    rw [natDigits_eq]
    by_cases h : n < 10
    · rw [if_pos h]
      exact ⟨digitCh n, [], rfl, (digitCh_facts n h).2.2.2.2.2.2 (by omega),
        n, h, rfl⟩
    · rw [if_neg h]
      obtain ⟨c, cs, he, hc0, hd⟩ := ih (n / 10) (by omega) (by omega)
      exact ⟨c, cs ++ [digitCh (n % 10)], by rw [he]; rfl, hc0, hd⟩

/-- The digit loop applied to the canonical decimal rendering of `n`
accumulates exactly `n`, stopping with a range error exactly when `n`
exceeds `maxVal`. -/
theorem scan_natDigits (maxVal : Nat) :
    ∀ n : Nat, scanDigits 10 maxVal (natDigits n) 0 false =
      if n ≤ maxVal then .ok (n, false) else .error .outOfRange := by
  intro n
  induction n using Nat.strong_induction_on with
  | _ n ih =>
    rw [natDigits_eq]
    by_cases h : n < 10
    · rw [if_pos h]
      obtain ⟨hdv, hu, -⟩ := digitCh_facts n h
      rw [scanDigits, if_neg hu, hdv]
      simp only [Nat.zero_mul, Nat.zero_add]
      split_ifs with h1 h2 h3 <;> first | rfl | omega
    · rw [if_neg h, scanDigits_append, ih (n / 10) (by omega)]
      by_cases hq : n / 10 ≤ maxVal
      · rw [if_pos hq]
        obtain ⟨hdv, hu, -⟩ := digitCh_facts (n % 10) (by omega)
        simp only [scanDigits, if_neg hu, hdv]
        have hrec : n / 10 * 10 + n % 10 = n := by omega
        split_ifs with h1 h2 h3 <;> first | rfl | (rw [hrec]) | omega
      · rw [if_neg hq, if_neg (by omega)]

/-- `ParseUint` on the canonical decimal rendering of `n ≥ 1`: the leading
digit is nonzero, so base detection picks decimal and the digit loop
decides the result. -/
theorem parseUintGo_natDigits (n bitSize : Nat) (hn : 1 ≤ n) :
    parseUintGo (natDigits n) bitSize =
      if n ≤ 2 ^ bitSize - 1 then .ok n else .error .outOfRange := by
  obtain ⟨c, cs, he, hc0, d, hd, rfl⟩ := natDigits_head n hn
  rw [he]
  simp only [parseUintGo, if_neg hc0]
  rw [← he, scan_natDigits]
  by_cases h : n ≤ 2 ^ bitSize - 1
  · rw [if_pos h, if_pos h]
    simp
  · rw [if_neg h, if_neg h]

theorem pow_sub_one_le (bitSize : Nat) (hb : 1 ≤ bitSize) :
    1 ≤ 2 ^ (bitSize - 1) ∧ 2 ^ (bitSize - 1) ≤ 2 ^ bitSize - 1 := by
  have h2 : 2 ^ bitSize = 2 ^ (bitSize - 1) * 2 := by
    rw [← pow_succ]
    congr 1
    omega
  have h3 : 1 ≤ 2 ^ (bitSize - 1) := Nat.one_le_two_pow
  exact ⟨h3, by omega⟩

theorem parseIntSigned_natDigits_false (n bitSize : Nat) (hn : 1 ≤ n)
    (hb : 1 ≤ bitSize) :
    parseIntSigned false (natDigits n) bitSize =
      if n < 2 ^ (bitSize - 1) then .ok (n : Int) else .error .outOfRange := by
  obtain ⟨hp1, hp2⟩ := pow_sub_one_le bitSize hb
  rw [parseIntSigned, parseUintGo_natDigits n bitSize hn]
  by_cases hmax : n ≤ 2 ^ bitSize - 1
  · rw [if_pos hmax]
    by_cases hcut : n < 2 ^ (bitSize - 1)
    · have h1 : ¬ (2 ^ (bitSize - 1) ≤ n) := by omega
      simp [h1, hcut]
    · have h1 : 2 ^ (bitSize - 1) ≤ n := by omega
      simp [h1, hcut]
  · rw [if_neg hmax, if_neg (by omega)]

theorem parseIntSigned_natDigits_true (n bitSize : Nat) (hn : 1 ≤ n)
    (hb : 1 ≤ bitSize) :
    parseIntSigned true (natDigits n) bitSize =
      if n ≤ 2 ^ (bitSize - 1) then .ok (-(n : Int)) else .error .outOfRange := by
  obtain ⟨hp1, hp2⟩ := pow_sub_one_le bitSize hb
  rw [parseIntSigned, parseUintGo_natDigits n bitSize hn]
  by_cases hmax : n ≤ 2 ^ bitSize - 1
  · rw [if_pos hmax]
    by_cases hcut : n ≤ 2 ^ (bitSize - 1)
    · have h1 : ¬ (2 ^ (bitSize - 1) < n) := by omega
      simp [h1, hcut]
    · have h1 : 2 ^ (bitSize - 1) < n := by omega
      simp [h1, hcut]
  · rw [if_neg hmax, if_neg (by omega)]

theorem parseIntGo_zero (b : Nat) : parseIntGo ['0'] b = .ok 0 := by
  have h1 : 1 ≤ 2 ^ (b - 1) := Nat.one_le_two_pow
  have h2 : ¬ (2 ^ (b - 1) ≤ 0) := by omega
  simp [parseIntGo, parseIntSigned, parseUintGo, scanDigits, h2]

/-- `strconv.ParseInt(token, 0, bitSize)` on the canonical decimal text of
any integer: the value itself when it fits the signed range, a range error
otherwise. -/
theorem parseIntGo_intDec (v : Int) (bitSize : Nat) (hb : 1 ≤ bitSize) :
    parseIntGo (intDec v) bitSize =
      if -((2 ^ (bitSize - 1) : Nat) : Int) ≤ v ∧ v < ((2 ^ (bitSize - 1) : Nat) : Int)
      then .ok v else .error .outOfRange := by
  have hp1 : 1 ≤ 2 ^ (bitSize - 1) := Nat.one_le_two_pow
  rcases lt_trichotomy v 0 with hneg | rfl | hpos
  · rw [intDec, if_pos hneg]
    have hn1 : 1 ≤ (-v).toNat := by omega
    simp only [parseIntGo]
    rw [if_neg (by decide), if_pos trivial,
      parseIntSigned_natDigits_true _ bitSize hn1 hb]
    by_cases h : (-v).toNat ≤ 2 ^ (bitSize - 1)
    · rw [if_pos h, if_pos (by constructor <;> omega)]
      congr 1
      omega
    · rw [if_neg h, if_neg (by intro hc; exact h (by omega))]
  · have hz : intDec 0 = ['0'] := by decide
    rw [hz, parseIntGo_zero bitSize, if_pos (by constructor <;> omega)]
  · rw [intDec, if_neg (by omega)]
    have hn1 : 1 ≤ v.toNat := by omega
    obtain ⟨c, cs, he, hc0, d, hd, rfl⟩ := natDigits_head v.toNat hn1
    rw [he]
    simp only [parseIntGo]
    rw [if_neg ((digitCh_facts d hd).2.2.2.1), if_neg ((digitCh_facts d hd).2.2.1),
      ← he, parseIntSigned_natDigits_false _ bitSize hn1 hb]
    by_cases h : v.toNat < 2 ^ (bitSize - 1)
    · rw [if_pos h, if_pos (by constructor <;> omega)]
      congr 1
      omega
    · rw [if_neg h, if_neg (by intro hc; exact h (by omega))]

theorem splitOnComma_no_comma : ∀ l : List Char, ',' ∉ l → splitOnComma l = [l]
  | [], _ => rfl
  | c :: rest, h => by
    have hc : ¬ c = ',' := fun hc => h (by simp [hc])
    rw [splitOnComma, splitOnComma_no_comma rest (fun hm => h (List.mem_cons_of_mem c hm))]
    simp [hc]

theorem dropWhile_ws_id (l : List Char) (h : ∀ c ∈ l, isWS c = false) :
    l.dropWhile isWS = l := by
  cases l with
  | nil => rfl
  | cons c rest =>
    rw [List.dropWhile_cons, if_neg (by simp [h c (List.mem_cons_self c rest)])]

theorem trimGo_id (l : List Char) (h : ∀ c ∈ l, isWS c = false) : trimGo l = l := by
  rw [trimGo, dropWhile_ws_id l h,
    dropWhile_ws_id _ (fun c hc => h c (List.mem_reverse.mp hc)),
    List.reverse_reverse]

theorem intDec_chars (v : Int) : ∀ c ∈ intDec v, isWS c = false ∧ c ≠ ',' := by
  intro c hc
  rw [intDec] at hc
  split_ifs at hc
  · rcases List.mem_cons.mp hc with rfl | hc
    · exact ⟨by decide, by decide⟩
    · obtain ⟨d, hd, rfl⟩ := natDigits_mem _ c hc
      exact ⟨(digitCh_facts d hd).2.2.2.2.1, (digitCh_facts d hd).2.2.2.2.2.1⟩
  · obtain ⟨d, hd, rfl⟩ := natDigits_mem _ c hc
    exact ⟨(digitCh_facts d hd).2.2.2.2.1, (digitCh_facts d hd).2.2.2.2.2.1⟩

theorem intDec_ne_nil (v : Int) : intDec v ≠ [] := by
  rw [intDec]
  split_ifs
  · simp
  · exact natDigits_ne_nil _

/-- The canonical decimal text of an integer survives `splitValues`
unchanged: no commas to split on, nothing to trim, not empty. -/
theorem splitValues_intDec (v : Int) : splitValues (intDec v) = [intDec v] := by
  have h := intDec_chars v
  rw [splitValues, splitOnComma_no_comma _ (fun hm => (h ',' hm).2 rfl)]
  simp only [List.map_cons, List.map_nil, trimGo_id _ (fun c hc => (h c hc).1)]
  rw [List.filter_cons, if_pos (by simp [intDec_ne_nil v])]
  rfl

/-- `encodeInts` on the canonical decimal text of one integer: big-endian
machine-word bytes when in range, a `MalformedInput` error naming the
token when out of range. -/
theorem encodeInts_intDec (v : Int) (w : Nat) (hw : w = 2 ∨ w = 4) :
    encodeInts (intDec v) w =
      if -((2 ^ (w * 8 - 1) : Nat) : Int) ≤ v ∧ v < ((2 ^ (w * 8 - 1) : Nat) : Int)
      then .ok (putUintBE w ((v % ((2 ^ (8 * w) : Nat) : Int)).toNat))
      else .error (.invalidInteger (intDec v)) := by
  rw [encodeInts, splitValues_intDec]
  simp only [encodeIntsAux]
  rw [parseIntGo_intDec v (w * 8) (by omega)]
  by_cases h : -((2 ^ (w * 8 - 1) : Nat) : Int) ≤ v ∧ v < ((2 ^ (w * 8 - 1) : Nat) : Int)
  · rw [if_pos h, if_pos h]
    simp
  · rw [if_neg h, if_neg h]

theorem decodeInts_putUintBE_2 (v : Int)
    (h1 : -((2 ^ (2 * 8 - 1) : Nat) : Int) ≤ v)
    (h2 : v < ((2 ^ (2 * 8 - 1) : Nat) : Int)) :
    decodeInts (putUintBE 2 ((v % ((2 ^ (8 * 2) : Nat) : Int)).toNat)) 2 = .ok [v] := by
  norm_num at h1 h2 ⊢
  rw [putUintBE]
  have hub : (v % (65536 : Int)).toNat < 65536 := by omega
  rw [decodeInts]
  norm_num [decode2, toSigned]
  have hr : (v % 65536).toNat / 256 % 256 * 256 + (v % 65536).toNat % 256
      = (v % 65536).toNat := by omega
  rw [hr]
  split_ifs with hs
  · omega
  · norm_num at hs ⊢
    omega

theorem decodeInts_putUintBE_4 (v : Int)
    (h1 : -((2 ^ (4 * 8 - 1) : Nat) : Int) ≤ v)
    (h2 : v < ((2 ^ (4 * 8 - 1) : Nat) : Int)) :
    decodeInts (putUintBE 4 ((v % ((2 ^ (8 * 4) : Nat) : Int)).toNat)) 4 = .ok [v] := by
  norm_num at h1 h2 ⊢
  rw [putUintBE]
  have hub : (v % (4294967296 : Int)).toNat < 4294967296 := by omega
  rw [decodeInts]
  norm_num [decode4, toSigned]
  split_ifs with hs
  · norm_num at hs ⊢
    omega
  · norm_num at hs ⊢
    omega

/-- C6: for the Int16 and Int32 formats, encoding the canonical decimal
text of any in-range signed value and decoding the resulting bytes
reproduces the value exactly; an out-of-range value is rejected with a
`MalformedInput` error naming the offending token (never silently
wrapped), as is a non-numeric token. -/
theorem c6_int_roundtrip (w : Nat) (v : Int) (hw : w = 2 ∨ w = 4) :
    ((-((2 ^ (w * 8 - 1) : Nat) : Int) ≤ v ∧ v < ((2 ^ (w * 8 - 1) : Nat) : Int)) →
      ∃ bs, encodeInts (intDec v) w = .ok bs ∧ decodeInts bs w = .ok [v]) ∧
    ((v < -((2 ^ (w * 8 - 1) : Nat) : Int) ∨ ((2 ^ (w * 8 - 1) : Nat) : Int) ≤ v) →
      encodeInts (intDec v) w = .error (.invalidInteger (intDec v))) ∧
    encodeInts ("abc".toList) w = .error (.invalidInteger ("abc".toList)) := by
  refine ⟨?_, ?_, ?_⟩
  · intro h
    refine ⟨putUintBE w ((v % ((2 ^ (8 * w) : Nat) : Int)).toNat), ?_, ?_⟩
    · rw [encodeInts_intDec v w hw, if_pos h]
    · rcases hw with rfl | rfl
      · exact decodeInts_putUintBE_2 v h.1 h.2
      · exact decodeInts_putUintBE_4 v h.1 h.2
  · intro h
    rw [encodeInts_intDec v w hw, if_neg (by rcases h with h | h <;> omega)]
  · rcases hw with rfl | rfl <;> decide

/-- Witness for C6: round trip at `-12345` (Int16), range rejection at
`40000` (Int16), and rejection of a non-numeric token. -/
theorem c6_witness :
    (∃ bs, encodeInts (intDec (-12345)) 2 = .ok bs ∧
      decodeInts bs 2 = .ok [(-12345 : Int)]) ∧
    encodeInts (intDec 40000) 2 = .error (.invalidInteger (intDec 40000)) ∧
    encodeInts ("abc".toList) 2 = .error (.invalidInteger ("abc".toList)) :=
  ⟨(c6_int_roundtrip 2 (-12345) (Or.inl rfl)).1 (by norm_num),
   (c6_int_roundtrip 2 40000 (Or.inl rfl)).2.1 (by norm_num),
   (c6_int_roundtrip 2 0 (Or.inl rfl)).2.2⟩

/-- C10 (implicit): `encodeInts` parses tokens with `strconv` base
auto-detection, not fixed decimal: `010` is octal (encodes to 8), `0x10` /
`0X10` are hexadecimal (encode to 16), while the 16-bit range is still
enforced (`0x8000` is rejected naming the token). -/
theorem c10_base_autodetect :
    encodeInts ("010".toList) 2 = .ok [0, 8] ∧
    encodeInts ("0x10".toList) 2 = .ok [0, 16] ∧
    encodeInts ("0X10".toList) 2 = .ok [0, 16] ∧
    encodeInts ("0x8000".toList) 2 = .error (.invalidInteger ("0x8000".toList)) ∧
    encodeInts ("010".toList) 4 = .ok [0, 0, 0, 8] := by
  refine ⟨by decide, by decide, by decide, by decide, by decide⟩

/-! ### C8: the poll loop runs exactly `count` cycles -/

theorem runPollGo_success (rd : Nat → Except AccessError (List Nat))
    (g : Nat → List Char) (fmt : List Char) (count : Nat) :
    ∀ k i : Nat, i + k = count → 1 ≤ k →
    (∀ j, i ≤ j → j < count → ∃ d o, rd j = .ok d ∧ formatData g d fmt = .ok o) →
    ∃ evs, runPollGo rd g fmt count k i = some (evs, .ok ()) ∧
      evs.countP isReadEv = k ∧ evs.countP isEmitEv = k ∧
      evs.countP isSleepEv = k - 1 ∧ ∃ o, evs.getLast? = some (.emit o) := by
  intro k
  induction k with
  | zero => intro i _ h1; omega
  | succ k ih =>
    intro i hik hk hok
    obtain ⟨d, o, hrd, hfmt⟩ := hok i (le_refl i) (by omega)
    rcases Nat.eq_zero_or_pos k with rfl | hkpos
    · refine ⟨[.read, .emit o], ?_, ?_, ?_, ?_, o, ?_⟩
      · simp only [runPollGo, hrd, hfmt]
        rw [if_pos (by constructor <;> omega)]
      · simp [List.countP_cons, isReadEv, isEmitEv]
      · simp [List.countP_cons, isReadEv, isEmitEv]
      · simp [List.countP_cons, isReadEv, isEmitEv, isSleepEv]
      · simp
    · obtain ⟨evs, heq, hr, he, hs, o2, hlast⟩ :=
        ih (i + 1) (by omega) (by omega) (fun j hj1 hj2 => hok j (by omega) hj2)
      refine ⟨.read :: .emit o :: .sleep :: evs, ?_, ?_, ?_, ?_, o2, ?_⟩
      · simp only [runPollGo, hrd, hfmt]
        rw [if_neg (by omega), heq]
      · simp [List.countP_cons, isReadEv, isEmitEv, isSleepEv, hr]
      · simp [List.countP_cons, isReadEv, isEmitEv, isSleepEv, he]
      · simp [List.countP_cons, isReadEv, isEmitEv, isSleepEv, hs]
        omega
      · cases evs with
        | nil => simp at hlast
        | cons e es =>
          rw [List.getLast?_cons_cons, List.getLast?_cons_cons, List.getLast?_cons_cons]
          exact hlast

/-- C8: for every poll plan with `count > 0` in which every read and
format succeeds, the loop finishes within exactly `count` iterations of
fuel with success, its trace holding exactly `count` read events, `count`
emit events and `count - 1` sleep events, and ending on an emit — the
inter-tick sleep is never executed after the last cycle. -/
theorem c8_poll_count (rd : Nat → Except AccessError (List Nat))
    (g : Nat → List Char) (fmt : List Char) (count : Nat) (hc : 0 < count)
    (hok : ∀ j, j < count → ∃ d o, rd j = .ok d ∧ formatData g d fmt = .ok o) :
    ∃ evs, runPollGo rd g fmt count count 0 = some (evs, .ok ()) ∧
      evs.countP isReadEv = count ∧ evs.countP isEmitEv = count ∧
      evs.countP isSleepEv = count - 1 ∧ ∃ o, evs.getLast? = some (.emit o) :=
  runPollGo_success rd g fmt count count 0 (by omega) (by omega)
    (fun j _ hj2 => hok j hj2)

/-- Witness for C8: a three-tick poll against a transport answering
`[1, 2]` every time, formatted as hex. -/
theorem c8_witness :
    ∃ evs, runPollGo (fun _ => .ok [1, 2]) (fun _ => []) ("hex".toList) 3 3 0 =
        some (evs, .ok ()) ∧
      evs.countP isReadEv = 3 ∧ evs.countP isEmitEv = 3 ∧
      evs.countP isSleepEv = 2 ∧ ∃ o, evs.getLast? = some (.emit o) :=
  c8_poll_count (fun _ => .ok [1, 2]) (fun _ => []) ("hex".toList) 3 (by decide)
    (fun j _ => ⟨[1, 2], "01 02".toList, rfl, rfl⟩)

end S7Poll
